import Mathlib

/-!
Shallow embedding of the Merkle commitment layer of demonsh/risc0
(src/risc0/zkp/src/prove/merkle.rs) and of its spec-described collaborators
(MerkleTreeParams, the HAL hashing primitives, the WriteIOP/ReadIOP transcript
and MerkleTreeVerifier, which are declared and used by that file but whose
sources are not part of the sources at hand).

Field elements and digests are modelled as natural numbers; the row-hash
function and the two-digest fold function are explicit parameters, so every
theorem below holds for an arbitrary hash suite.
-/

namespace RiscZero

/-- Modelled from the spec: one item appended to the WriteIOP transcript
(src/risc0/zkp/src/prove/write_iop.rs is absent).  The transcript is an ordered
stream with write_field_elem_slice, write_pod_slice and a stateful commit
primitive that appends the digest; a slice write of length n is flattened into
n consecutive items. -/
inductive IOPWrite where
  | fieldElem : Nat → IOPWrite
  | digest : Nat → IOPWrite
  | commitDigest : Nat → IOPWrite
deriving DecidableEq

/-- Tree geometry, as carried by the prover (field names follow the source). -/
structure MerkleTreeParams where
  row_size : Nat
  col_size : Nat
  queries : Nat
  layers : Nat
  top_size : Nat
deriving DecidableEq

/-- Modelled from the spec: MerkleTreeParams::new (src/risc0/zkp/src/merkle.rs,
absent).  top_size follows the spec's words: the smallest power of two not less
than queries, clamped to rows.  For layers, the spec's formula
log2(rows) - log2(top_size) contradicts the source's own invariant: the
prover's nodes buffer has size 1 << (layers + 1)
(src/risc0/zkp/src/prove/merkle.rs lines 33-35) yet is allocated as rows * 2
(line 66), and the fold loop of MerkleTreeProver::new runs layers times and
reaches the root only when layers = log2(rows); so layers = log2(rows). -/
def MerkleTreeParams.new (rows cols queries : Nat) : MerkleTreeParams :=
  { row_size := rows
    col_size := cols
    queries := queries
    layers := Nat.log 2 rows
    top_size := min (2 ^ Nat.clog 2 queries) rows }

/-- The idx-th column of the row-major matrix: element i is
matrix[idx + i * rows] (src/risc0/zkp/src/prove/merkle.rs lines 115-117). -/
def column (matrix : List Nat) (rows cols idx : Nat) : List Nat :=
  (List.range cols).map fun i => matrix.getD (idx + i * rows) 0

/-- Modelled from the spec: one hal.hash_fold call (the HAL backends are
absent): writes hash(node[2j], node[2j+1]) into every j in [s, 2*s), leaving
every other entry of the heap unchanged. -/
def hashFoldStep (hf : Nat → Nat → Nat) (nodes : Nat → Nat) (s : Nat) : Nat → Nat :=
  fun j => if s ≤ j ∧ j < 2 * s then hf (nodes (2 * j)) (nodes (2 * j + 1)) else nodes j

/-- The fold loop of MerkleTreeProver::new (src/risc0/zkp/src/prove/merkle.rs
lines 70-75): for i in (0..k).rev(), hash_fold with layer_size = 1 << i. -/
def foldLoop (hf : Nat → Nat → Nat) (nodes : Nat → Nat) : Nat → Nat → Nat
  | 0 => nodes
  | k + 1 => foldLoop hf (hashFoldStep hf nodes (2 ^ k)) k

/-- The node heap built over a list of leaf digests: the leaves are installed at
positions [n, 2n) (hal.hash_rows into nodes.slice(rows, rows), source line 68;
entries the build never writes read as 0), then the fold loop runs log2 n
times. -/
def heapify (hf : Nat → Nat → Nat) (leaves : List Nat) : Nat → Nat :=
  foldLoop hf
    (fun j =>
      if leaves.length ≤ j ∧ j < 2 * leaves.length then leaves.getD (j - leaves.length) 0 else 0)
    (Nat.log 2 leaves.length)

/-- Modelled from the spec: hal.hash_rows (absent) hashes each of the rows
columns of the matrix into a leaf digest; leaf j is the row-hash of column j. -/
def leafList (hashRow : List Nat → Nat) (matrix : List Nat) (rows cols : Nat) : List Nat :=
  (List.range rows).map fun j => hashRow (column matrix rows cols j)

/-- The prover state (src/risc0/zkp/src/prove/merkle.rs lines 27-40): the
geometry, the retained matrix, the host-resident node heap of size 2 * rows
(index 0 unused) and the root. -/
structure MerkleTreeProver where
  params : MerkleTreeParams
  matrix : List Nat
  nodes : List Nat
  root : Nat
deriving DecidableEq

/-- MerkleTreeProver::new (src/risc0/zkp/src/prove/merkle.rs lines 56-87).  The
assert_eq!(matrix.size(), rows * cols) on entry is modelled as returning none. -/
def MerkleTreeProver.new (hashRow : List Nat → Nat) (hf : Nat → Nat → Nat)
    (matrix : List Nat) (rows cols queries : Nat) : Option MerkleTreeProver :=
  if matrix.length = rows * cols then
    let nodesF := heapify hf (leafList hashRow matrix rows cols)
    some { params := MerkleTreeParams.new rows cols queries
           matrix := matrix
           nodes := (List.range (2 * rows)).map nodesF
           root := nodesF 1 }
  else none

/-- MerkleTreeProver::commit (src/risc0/zkp/src/prove/merkle.rs lines 90-94):
write nodes[top_size .. top_size * 2] to the transcript as a pod slice, then
commit the root. -/
def MerkleTreeProver.commit (p : MerkleTreeProver) : List IOPWrite :=
  ((p.nodes.drop p.params.top_size).take p.params.top_size).map IOPWrite.digest
    ++ [IOPWrite.commitDigest p.root]

/-- The sibling-path loop of MerkleTreeProver::prove
(src/risc0/zkp/src/prove/merkle.rs lines 133-139): while idx >= 2 * top_size,
write nodes[2 * (idx / 2) + (1 - idx % 2)] and move to the parent idx / 2.  The
conjunct 0 < ts records the loop's termination precondition (top_size is always
a positive power of two; with top_size = 0 the source loop would never exit). -/
def siblingWalk (nodes : Nat → Nat) (ts : Nat) (idx : Nat) : List Nat :=
  if 2 * ts ≤ idx ∧ 0 < ts then
    nodes (2 * (idx / 2) + (1 - idx % 2)) :: siblingWalk nodes ts (idx / 2)
  else []
termination_by idx
decreasing_by omega

/-- The heap indices the sibling-path loop of prove reads, in order. -/
def siblingWalkIndices (ts : Nat) (idx : Nat) : List Nat :=
  if 2 * ts ≤ idx ∧ 0 < ts then
    (2 * (idx / 2) + (1 - idx % 2)) :: siblingWalkIndices ts (idx / 2)
  else []
termination_by idx
decreasing_by omega

/-- The contract of hal.gather_sample per the spec: it fills a buffer of the
requested size, copying element matrix[idx + i * stride] into position i. -/
def GatherContract (gather : List Nat → Nat → Nat → Nat → List Nat) : Prop :=
  ∀ matrix idx size stride,
    (gather matrix idx size stride).length = size ∧
      ∀ i, i < size →
        (gather matrix idx size stride).getD i 0 = matrix.getD (idx + i * stride) 0

/-- Modelled from the spec: hal.gather_sample (the HAL backends are absent),
the reference realisation of its contract. -/
def gather_sample (matrix : List Nat) (idx size stride : Nat) : List Nat :=
  (List.range size).map fun i => matrix.getD (idx + i * stride) 0

/-- MerkleTreeProver::prove (src/risc0/zkp/src/prove/merkle.rs lines 110-141).
The assert!(idx < row_size) on entry is modelled as returning none.  unified is
hal.has_unified_memory() and gather is hal.gather_sample, selecting between the
in-place read and the gather path.  Returns the extracted column together with
the transcript writes: the column as field elements, then one sibling digest
per level up to the top boundary. -/
def MerkleTreeProver.prove (unified : Bool) (gather : List Nat → Nat → Nat → Nat → List Nat)
    (p : MerkleTreeProver) (idx : Nat) : Option (List Nat × List IOPWrite) :=
  if idx < p.params.row_size then
    let out :=
      if unified then
        (List.range p.params.col_size).map fun i => p.matrix.getD (idx + i * p.params.row_size) 0
      else
        gather p.matrix idx p.params.col_size p.params.row_size
    let sibs := siblingWalk (fun j => p.nodes.getD j 0) p.params.top_size (idx + p.params.row_size)
    some (out, out.map IOPWrite.fieldElem ++ sibs.map IOPWrite.digest)
  else none

/-- Modelled from the spec: the ReadIOP side reads n raw digests from the
stream, failing (none) on a malformed or truncated stream. -/
def readDigests : Nat → List IOPWrite → Option (List Nat × List IOPWrite)
  | 0, s => some ([], s)
  | n + 1, IOPWrite.digest d :: s =>
    match readDigests n s with
    | some (ds, rest) => some (d :: ds, rest)
    | none => none
  | _ + 1, _ => none

/-- Modelled from the spec: the ReadIOP side reads n field elements from the
stream, failing (none) on a malformed or truncated stream. -/
def readElems : Nat → List IOPWrite → Option (List Nat × List IOPWrite)
  | 0, s => some ([], s)
  | n + 1, IOPWrite.fieldElem v :: s =>
    match readElems n s with
    | some (vs, rest) => some (v :: vs, rest)
    | none => none
  | _ + 1, _ => none

/-- The verifier state: the shared geometry, the recomputed top heap of size
2 * top_size (entries [top_size, 2 * top_size) read from the transcript,
entries [1, top_size) folded from them) and the recomputed root. -/
structure MerkleTreeVerifier where
  params : MerkleTreeParams
  top : List Nat
  root : Nat
deriving DecidableEq

/-- Modelled from the spec: MerkleTreeVerifier::new
(src/risc0/zkp/src/verify/merkle.rs, absent).  Derives the same Params as the
prover, reads top_size digests from the transcript, folds them upward with the
same fold algorithm into a heap of size 2 * top_size whose entry 1 is the
recomputed root, and consumes the digest-commit entry the prover's commit
appended. -/
def MerkleTreeVerifier.new (hf : Nat → Nat → Nat) (rows cols queries : Nat)
    (s : List IOPWrite) : Option (MerkleTreeVerifier × List IOPWrite) :=
  let params := MerkleTreeParams.new rows cols queries
  match readDigests params.top_size s with
  | some (ds, IOPWrite.commitDigest _ :: rest) =>
    let topF := heapify hf ds
    some ({ params := params
            top := (List.range (2 * params.top_size)).map topF
            root := topF 1 }, rest)
  | _ => none

/-- Modelled from the spec: the upward walk of MerkleTreeVerifier::verify.
While the current index is at or above the top boundary, read one sibling
digest and fold it in on the correct side (an even index is a left child, an
odd one a right child), then move to the parent.  Returns the recomputed
digest, the index reached at the top boundary, and the unread rest; none on a
malformed or truncated stream. -/
def verifyWalk (hf : Nat → Nat → Nat) (ts : Nat) (cur : Nat) (idx : Nat)
    (s : List IOPWrite) : Option (Nat × Nat × List IOPWrite) :=
  if 2 * ts ≤ idx ∧ 0 < ts then
    match s with
    | IOPWrite.digest sib :: rest =>
      verifyWalk hf ts (if idx % 2 = 0 then hf cur sib else hf sib cur) (idx / 2) rest
    | _ => none
  else some (cur, idx, s)
termination_by idx
decreasing_by omega

/-- Modelled from the spec: the outcome of MerkleTreeVerifier::verify — the
column and the unread rest of the stream on success, the recoverable
InvalidProof on a digest mismatch, or the distinct decoding failure on a
malformed or truncated stream. -/
inductive VerifyOutcome where
  | ok : List Nat → List IOPWrite → VerifyOutcome
  | invalidProof : VerifyOutcome
  | malformed : VerifyOutcome
deriving DecidableEq

/-- Modelled from the spec: MerkleTreeVerifier::verify (absent): read the cols
claimed column values, hash them into a leaf digest with the same row-hash as
the prover, walk upward from idx + rows reading one sibling digest per level,
stop at the top boundary and compare the recomputed digest with the top-layer
entry recomputed in new. -/
def MerkleTreeVerifier.verify (hashRow : List Nat → Nat) (hf : Nat → Nat → Nat)
    (v : MerkleTreeVerifier) (idx : Nat) (s : List IOPWrite) : VerifyOutcome :=
  match readElems v.params.col_size s with
  | some (col, s1) =>
    match verifyWalk hf v.params.top_size (hashRow col) (idx + v.params.row_size) s1 with
    | some (cur, topIdx, rest) =>
      if cur = v.top.getD topIdx 0 then VerifyOutcome.ok col rest
      else VerifyOutcome.invalidProof
    | none => VerifyOutcome.malformed
  | none => VerifyOutcome.malformed

/-! ## A concrete hash suite and a concrete 4 x 2 tree, used to exercise the
definitions on explicit inputs (the geometry of the source's merkle_cpu_4_4_2
tests, with two columns). -/

def tHashRow : List Nat → Nat := fun l => l.foldl (fun a x => 3 * a + x + 1) 7

def tHashFold : Nat → Nat → Nat := fun a b => 5 * a + 2 * b + 11

def tMatrix : List Nat := [10, 11, 12, 13, 20, 21, 22, 23]

/-- The prover MerkleTreeProver::new builds from tMatrix with rows = 4,
cols = 2, queries = 2 (so top_size = 2, layers = 2), written out in full. -/
def tProver : MerkleTreeProver :=
  { params := { row_size := 4, col_size := 2, queries := 2, layers := 2, top_size := 2 }
    matrix := tMatrix
    nodes := [0, 5989, 838, 894, 117, 121, 125, 129]
    root := 5989 }

/-! ## Heap construction lemmas -/

theorem hashFoldStep_out (hf : Nat → Nat → Nat) (nodes : Nat → Nat) (s j : Nat)
    (h : j < s ∨ 2 * s ≤ j) : hashFoldStep hf nodes s j = nodes j := by
  unfold hashFoldStep
  rw [if_neg (by omega)]

theorem hashFoldStep_in (hf : Nat → Nat → Nat) (nodes : Nat → Nat) (s j : Nat)
    (h1 : s ≤ j) (h2 : j < 2 * s) :
    hashFoldStep hf nodes s j = hf (nodes (2 * j)) (nodes (2 * j + 1)) := by
  unfold hashFoldStep
  rw [if_pos ⟨h1, h2⟩]

theorem foldLoop_ge (hf : Nat → Nat → Nat) :
    ∀ (k : Nat) (nodes : Nat → Nat) (j : Nat), 2 ^ k ≤ j → foldLoop hf nodes k j = nodes j := by
  intro k
  induction k with
  | zero => intro nodes j hj; rfl
  | succ m ih =>
    intro nodes j hj
    have hpow : (2 : Nat) ^ (m + 1) = 2 * 2 ^ m := by ring
    show foldLoop hf (hashFoldStep hf nodes (2 ^ m)) m j = nodes j
    rw [ih _ j (by omega)]
    exact hashFoldStep_out hf nodes (2 ^ m) j (by omega)

theorem foldLoop_node (hf : Nat → Nat → Nat) :
    ∀ (L : Nat) (nodes : Nat → Nat) (k j : Nat), k < L → 2 ^ k ≤ j → j < 2 ^ (k + 1) →
      foldLoop hf nodes L j =
        hf (foldLoop hf nodes L (2 * j)) (foldLoop hf nodes L (2 * j + 1)) := by
  intro L
  induction L with
  | zero => intro nodes k j hkL _ _; omega
  | succ m ih =>
    intro nodes k j hkL hlo hhi
    have hpow : (2 : Nat) ^ (k + 1) = 2 * 2 ^ k := by ring
    simp only [foldLoop]
    by_cases hk : k = m
    · subst hk
      rw [foldLoop_ge hf k _ j hlo]
      rw [foldLoop_ge hf k _ (2 * j) (by omega)]
      rw [foldLoop_ge hf k _ (2 * j + 1) (by omega)]
      rw [hashFoldStep_in hf nodes (2 ^ k) j hlo (by omega)]
      rw [hashFoldStep_out hf nodes (2 ^ k) (2 * j) (by omega)]
      rw [hashFoldStep_out hf nodes (2 ^ k) (2 * j + 1) (by omega)]
    · exact ih _ k j (by omega) hlo hhi

theorem heapify_leaf (hf : Nat → Nat → Nat) (leaves : List Nat) (m j : Nat)
    (hlen : leaves.length = 2 ^ m) (hlo : 2 ^ m ≤ j) (hhi : j < 2 ^ (m + 1)) :
    heapify hf leaves j = leaves.getD (j - 2 ^ m) 0 := by
  have hpow : (2 : Nat) ^ (m + 1) = 2 * 2 ^ m := by ring
  unfold heapify
  rw [hlen, Nat.log_pow (by norm_num)]
  rw [foldLoop_ge hf m _ j hlo]
  rw [if_pos (by omega)]

theorem heapify_node (hf : Nat → Nat → Nat) (leaves : List Nat) (m j : Nat)
    (hlen : leaves.length = 2 ^ m) (hlo : 1 ≤ j) (hhi : j < 2 ^ m) :
    heapify hf leaves j = hf (heapify hf leaves (2 * j)) (heapify hf leaves (2 * j + 1)) := by
  unfold heapify
  rw [hlen, Nat.log_pow (by norm_num)]
  have hj0 : j ≠ 0 := by omega
  exact foldLoop_node hf m _ (Nat.log 2 j) j
    (Nat.log_lt_of_lt_pow hj0 hhi)
    (Nat.pow_log_le_self 2 hj0)
    (Nat.lt_pow_succ_log_self (by norm_num) j)

/-! ## Arithmetic and list access helpers -/

theorem xor_one_eq_sibling (n : Nat) : n ^^^ 1 = 2 * (n / 2) + (1 - n % 2) := by
  have h1 : (1 : Nat) = Nat.bit true 0 := by simp [Nat.bit]
  rcases Nat.even_or_odd n with h | h
  · obtain ⟨m, hm⟩ := h
    have hn : n = Nat.bit false m := by simp [Nat.bit]; omega
    rw [hn, h1, Nat.xor_bit]
    simp [Nat.bit]
    try omega
  · obtain ⟨m, hm⟩ := h
    have hn : n = Nat.bit true m := by simp [Nat.bit]; omega
    rw [hn, h1, Nat.xor_bit]
    simp [Nat.bit]
    try omega

theorem getD_map_range (f : Nat → Nat) (n j : Nat) (hj : j < n) :
    ((List.range n).map f).getD j 0 = f j := by
  rw [List.getD_eq_getElem _ _ (by simpa using hj)]
  simp [hj]

/-! ## Transcript reader lemmas -/

theorem readDigests_exact :
    ∀ (ds : List Nat) (rest : List IOPWrite),
      readDigests ds.length (ds.map IOPWrite.digest ++ rest) = some (ds, rest) := by
  intro ds
  induction ds with
  | nil => intro rest; rfl
  | cons d tl ih =>
    intro rest
    simp only [List.map_cons, List.cons_append, List.length_cons, readDigests,
      List.append_eq, ih]

theorem readElems_exact :
    ∀ (vs : List Nat) (rest : List IOPWrite),
      readElems vs.length (vs.map IOPWrite.fieldElem ++ rest) = some (vs, rest) := by
  intro vs
  induction vs with
  | nil => intro rest; rfl
  | cons v tl ih =>
    intro rest
    simp only [List.map_cons, List.cons_append, List.length_cons, readElems,
      List.append_eq, ih]

/-! ## Sibling-walk lemmas -/

theorem siblingWalk_eq_map (nodes : Nat → Nat) (ts : Nat) :
    ∀ idx, siblingWalk nodes ts idx = (siblingWalkIndices ts idx).map nodes := by
  intro idx
  induction idx using Nat.strong_induction_on with
  | _ idx ih =>
    rw [siblingWalk, siblingWalkIndices]
    by_cases h : 2 * ts ≤ idx ∧ 0 < ts
    · rw [if_pos h, if_pos h, List.map_cons, ih (idx / 2) (by omega)]
    · rw [if_neg h, if_neg h]
      rfl

theorem siblingWalkIndices_mem (ts R : Nat) :
    ∀ idx, idx < 2 * R → ∀ j ∈ siblingWalkIndices ts idx, 1 ≤ j ∧ j < 2 * R := by
  intro idx
  induction idx using Nat.strong_induction_on with
  | _ idx ih =>
    intro hidx j hj
    rw [siblingWalkIndices] at hj
    by_cases h : 2 * ts ≤ idx ∧ 0 < ts
    · rw [if_pos h] at hj
      rcases List.mem_cons.mp hj with he | ht
      · omega
      · exact ih (idx / 2) (by omega) (by omega) j ht
    · rw [if_neg h] at hj
      simp at hj

theorem siblingWalkIndices_length (t : Nat) :
    ∀ (j idx : Nat), t ≤ j → 2 ^ j ≤ idx → idx < 2 ^ (j + 1) →
      (siblingWalkIndices (2 ^ t) idx).length = j - t := by
  intro j
  induction j with
  | zero =>
    intro idx htj hlo hhi
    have ht0 : t = 0 := by omega
    subst ht0
    have h1 : (2 : Nat) ^ 0 = 1 := by norm_num
    have h2 : (2 : Nat) ^ (0 + 1) = 2 := by norm_num
    rw [siblingWalkIndices, if_neg (by omega)]
    simp
  | succ m ih =>
    intro idx htj hlo hhi
    have hts : (0 : Nat) < 2 ^ t := Nat.pos_pow_of_pos t (by norm_num)
    by_cases hm : t = m + 1
    · subst hm
      have hpow : (2 : Nat) ^ (m + 1 + 1) = 2 * 2 ^ (m + 1) := by ring
      rw [siblingWalkIndices, if_neg (by omega)]
      simp
    · have htm : t ≤ m := by omega
      have hpow1 : (2 : Nat) ^ (m + 1) = 2 * 2 ^ m := by ring
      have hpow2 : (2 : Nat) ^ (m + 1 + 1) = 2 * 2 ^ (m + 1) := by ring
      have hle : (2 : Nat) ^ t ≤ 2 ^ m := Nat.pow_le_pow_right (by norm_num) htm
      rw [siblingWalkIndices, if_pos (by constructor <;> omega)]
      rw [List.length_cons, ih (idx / 2) htm (by omega) (by omega)]
      omega

/-- The index at which the upward walk crosses the top boundary. -/
def topIndex (ts idx : Nat) : Nat :=
  if 2 * ts ≤ idx ∧ 0 < ts then topIndex ts (idx / 2) else idx
termination_by idx
decreasing_by omega

theorem topIndex_bounds (ts : Nat) (hts : 0 < ts) :
    ∀ idx, ts ≤ idx → ts ≤ topIndex ts idx ∧ topIndex ts idx < 2 * ts := by
  intro idx
  induction idx using Nat.strong_induction_on with
  | _ idx ih =>
    intro hidx
    rw [topIndex]
    by_cases h : 2 * ts ≤ idx ∧ 0 < ts
    · rw [if_pos h]
      exact ih (idx / 2) (by omega) (by omega)
    · rw [if_neg h]
      omega

/-! ## Prover construction lemmas -/

theorem leafList_length (hashRow : List Nat → Nat) (matrix : List Nat) (rows cols : Nat) :
    (leafList hashRow matrix rows cols).length = rows := by
  simp [leafList]

theorem new_inv (hashRow : List Nat → Nat) (hf : Nat → Nat → Nat)
    (matrix : List Nat) (rows cols queries : Nat) (p : MerkleTreeProver)
    (h : MerkleTreeProver.new hashRow hf matrix rows cols queries = some p) :
    matrix.length = rows * cols ∧
      p.params = MerkleTreeParams.new rows cols queries ∧
      p.matrix = matrix ∧
      p.nodes = (List.range (2 * rows)).map (heapify hf (leafList hashRow matrix rows cols)) ∧
      p.root = heapify hf (leafList hashRow matrix rows cols) 1 := by
  unfold MerkleTreeProver.new at h
  by_cases hm : matrix.length = rows * cols
  · rw [if_pos hm] at h
    simp only [Option.some_inj] at h
    subst h
    exact ⟨hm, rfl, rfl, rfl, rfl⟩
  · rw [if_neg hm] at h
    cases h

theorem prover_nodes_leaf (hashRow : List Nat → Nat) (hf : Nat → Nat → Nat)
    (matrix : List Nat) (k cols j : Nat) (hlo : 2 ^ k ≤ j) (hhi : j < 2 ^ (k + 1)) :
    heapify hf (leafList hashRow matrix (2 ^ k) cols) j =
      hashRow (column matrix (2 ^ k) cols (j - 2 ^ k)) := by
  rw [heapify_leaf hf _ k j (leafList_length hashRow matrix (2 ^ k) cols) hlo hhi]
  unfold leafList
  exact getD_map_range _ (2 ^ k) (j - 2 ^ k)
    (by
      have hpow : (2 : Nat) ^ (k + 1) = 2 * 2 ^ k := by ring
      omega)

theorem prover_nodes_node (hashRow : List Nat → Nat) (hf : Nat → Nat → Nat)
    (matrix : List Nat) (k cols j : Nat) (hlo : 1 ≤ j) (hhi : j < 2 ^ k) :
    heapify hf (leafList hashRow matrix (2 ^ k) cols) j =
      hf (heapify hf (leafList hashRow matrix (2 ^ k) cols) (2 * j))
        (heapify hf (leafList hashRow matrix (2 ^ k) cols) (2 * j + 1)) :=
  heapify_node hf _ k j (leafList_length hashRow matrix (2 ^ k) cols) hlo hhi

theorem top_slice_eq (f : Nat → Nat) (R ts : Nat) (h : ts ≤ R) :
    (((List.range (2 * R)).map f).drop ts).take ts =
      (List.range ts).map fun i => f (ts + i) := by
  apply List.ext_getElem
  · simp
    omega
  · intro i h1 h2
    simp [List.getElem_take, List.getElem_drop, List.getElem_map, List.getElem_range]

/-! ## Verifier simulation lemmas -/

theorem verifyWalk_cons (hf : Nat → Nat → Nat) (ts cur idx sib : Nat)
    (rest : List IOPWrite) (h : 2 * ts ≤ idx ∧ 0 < ts) :
    verifyWalk hf ts cur idx (IOPWrite.digest sib :: rest) =
      verifyWalk hf ts (if idx % 2 = 0 then hf cur sib else hf sib cur) (idx / 2) rest := by
  rw [verifyWalk.eq_def, if_pos h]

theorem verifyWalk_stop (hf : Nat → Nat → Nat) (ts cur idx : Nat)
    (s : List IOPWrite) (h : ¬(2 * ts ≤ idx ∧ 0 < ts)) :
    verifyWalk hf ts cur idx s = some (cur, idx, s) := by
  rw [verifyWalk.eq_def, if_neg h]

theorem verifyWalk_sim (hf : Nat → Nat → Nat) (N : Nat → Nat) (ts R : Nat)
    (hts : 0 < ts)
    (hheap : ∀ i, 1 ≤ i → i < R → N i = hf (N (2 * i)) (N (2 * i + 1))) :
    ∀ idx, ts ≤ idx → idx < 2 * R → ∀ rest,
      verifyWalk hf ts (N idx) idx ((siblingWalk N ts idx).map IOPWrite.digest ++ rest) =
        some (N (topIndex ts idx), topIndex ts idx, rest) := by
  intro idx
  induction idx using Nat.strong_induction_on with
  | _ idx ih =>
    intro hlo hhi rest
    by_cases h : 2 * ts ≤ idx ∧ 0 < ts
    · rw [siblingWalk, if_pos h, topIndex, if_pos h]
      simp only [List.map_cons, List.cons_append]
      rw [verifyWalk_cons hf ts _ idx _ _ h]
      have hstep :
          (if idx % 2 = 0 then hf (N idx) (N (2 * (idx / 2) + (1 - idx % 2)))
            else hf (N (2 * (idx / 2) + (1 - idx % 2))) (N idx)) = N (idx / 2) := by
        have hp : N (idx / 2) = hf (N (2 * (idx / 2))) (N (2 * (idx / 2) + 1)) :=
          hheap (idx / 2) (by omega) (by omega)
        by_cases he : idx % 2 = 0
        · rw [if_pos he, hp]
          have e1 : 2 * (idx / 2) = idx := by omega
          have e2 : 2 * (idx / 2) + (1 - idx % 2) = 2 * (idx / 2) + 1 := by omega
          rw [e2, e1]
        · rw [if_neg he, hp]
          have e1 : 2 * (idx / 2) + 1 = idx := by omega
          have e2 : 2 * (idx / 2) + (1 - idx % 2) = 2 * (idx / 2) := by omega
          rw [e2, e1]
      rw [hstep]
      exact ih (idx / 2) (by omega) (by omega) (by omega) rest
    · rw [siblingWalk, if_neg h, topIndex, if_neg h, verifyWalk_stop hf ts _ idx _ h]
      simp

theorem verifier_top_agrees (hf : Nat → Nat → Nat) (N : Nat → Nat) (t R : Nat)
    (hle : 2 ^ t ≤ R)
    (hheap : ∀ i, 1 ≤ i → i < R → N i = hf (N (2 * i)) (N (2 * i + 1))) :
    ∀ j, 1 ≤ j → j < 2 * 2 ^ t →
      heapify hf ((List.range (2 ^ t)).map fun i => N (2 ^ t + i)) j = N j := by
  have hlen : ((List.range (2 ^ t)).map fun i => N (2 ^ t + i)).length = 2 ^ t := by simp
  have hpow : (2 : Nat) ^ (t + 1) = 2 * 2 ^ t := by ring
  have main : ∀ d j, 1 ≤ j → j < 2 * 2 ^ t → 2 * 2 ^ t - j ≤ d →
      heapify hf ((List.range (2 ^ t)).map fun i => N (2 ^ t + i)) j = N j := by
    intro d
    induction d with
    | zero => intro j h1 h2 h3; omega
    | succ m ih =>
      intro j h1 h2 h3
      by_cases hleaf : 2 ^ t ≤ j
      · rw [heapify_leaf hf _ t j hlen hleaf (by omega)]
        rw [getD_map_range _ (2 ^ t) (j - 2 ^ t) (by omega)]
        congr 1
        omega
      · rw [heapify_node hf _ t j hlen h1 (by omega)]
        rw [ih (2 * j) (by omega) (by omega) (by omega)]
        rw [ih (2 * j + 1) (by omega) (by omega) (by omega)]
        exact (hheap j h1 (by omega)).symm
  intro j h1 h2
  exact main (2 * 2 ^ t) j h1 h2 (by omega)

/-! ## Geometry parameter lemmas -/

theorem params_new_row_size (rows cols queries : Nat) :
    (MerkleTreeParams.new rows cols queries).row_size = rows := rfl

theorem params_new_col_size (rows cols queries : Nat) :
    (MerkleTreeParams.new rows cols queries).col_size = cols := rfl

theorem params_new_top_size (rows cols queries : Nat) :
    (MerkleTreeParams.new rows cols queries).top_size =
      min (2 ^ Nat.clog 2 queries) rows := rfl

theorem params_new_layers (rows cols queries : Nat) :
    (MerkleTreeParams.new rows cols queries).layers = Nat.log 2 rows := rfl

theorem top_size_pow (rl cols queries : Nat) :
    (MerkleTreeParams.new (2 ^ rl) cols queries).top_size =
      2 ^ min (Nat.clog 2 queries) rl := by
  rw [params_new_top_size]
  rcases le_total (Nat.clog 2 queries) rl with h | h
  · rw [min_eq_left (Nat.pow_le_pow_right (by norm_num) h), min_eq_left h]
  · rw [min_eq_right (Nat.pow_le_pow_right (by norm_num) h), min_eq_right h]

theorem tProver_new : MerkleTreeProver.new tHashRow tHashFold tMatrix 4 2 2 = some tProver := by
  simp [MerkleTreeProver.new, MerkleTreeParams.new, heapify, leafList, column, foldLoop,
    hashFoldStep, tHashRow, tHashFold, tMatrix, tProver, Nat.log, Nat.clog, List.range,
    List.range.loop]

theorem prove_eq_some (gather : List Nat → Nat → Nat → Nat → List Nat)
    (p : MerkleTreeProver) (idx : Nat) (h : idx < p.params.row_size) :
    MerkleTreeProver.prove true gather p idx =
      some (column p.matrix p.params.row_size p.params.col_size idx,
        (column p.matrix p.params.row_size p.params.col_size idx).map IOPWrite.fieldElem ++
          (siblingWalk (fun j => p.nodes.getD j 0) p.params.top_size
              (idx + p.params.row_size)).map IOPWrite.digest) := by
  unfold MerkleTreeProver.prove
  rw [if_pos h]
  rfl

theorem prove_gather_eq_some (gather : List Nat → Nat → Nat → Nat → List Nat)
    (p : MerkleTreeProver) (idx : Nat) (h : idx < p.params.row_size) :
    MerkleTreeProver.prove false gather p idx =
      some (gather p.matrix idx p.params.col_size p.params.row_size,
        (gather p.matrix idx p.params.col_size p.params.row_size).map IOPWrite.fieldElem ++
          (siblingWalk (fun j => p.nodes.getD j 0) p.params.top_size
              (idx + p.params.row_size)).map IOPWrite.digest) := by
  unfold MerkleTreeProver.prove
  rw [if_pos h]
  rfl

theorem tProver_prove : MerkleTreeProver.prove true gather_sample tProver 2 =
    some ([12, 22], [IOPWrite.fieldElem 12, IOPWrite.fieldElem 22, IOPWrite.digest 129]) := by
  rw [prove_eq_some gather_sample tProver 2 (by decide)]
  rw [siblingWalk, if_pos (by decide), siblingWalk, if_neg (by decide)]
  simp [tProver, tMatrix, column]
  decide

/-! ## Claims -/

/-- C7, counterexample: at rows = 1024, queries = 50 the modelled parameters
give top_size = 64 exactly as the claim says, but layers = log2(1024) = 10,
not log2(rows) - log2(top_size) = 4. -/
theorem C7_counterexample :
    (MerkleTreeParams.new 1024 1 50).top_size = 64 ∧
      (MerkleTreeParams.new 1024 1 50).layers = 10 ∧
      ¬((MerkleTreeParams.new 1024 1 50).layers =
          Nat.log 2 1024 - Nat.log 2 (MerkleTreeParams.new 1024 1 50).top_size) := by
  refine ⟨?_, ?_, ?_⟩
  · rw [params_new_top_size]
    simp [Nat.clog]
  · rw [params_new_layers]
    simp [Nat.log]
  · rw [params_new_layers, params_new_top_size]
    simp [Nat.log, Nat.clog]

/-- C7, amended: for every rows = 2^k, cols and queries,
MerkleTreeParams::new (modelled from the spec for top_size, and from the
source's nodes-buffer invariant for layers) yields top_size equal to the
smallest power of two not less than queries, clamped so that top_size ≤ rows,
while layers equals log2(rows) itself, not log2(rows) - log2(top_size); in
particular rows = 1024, queries = 50 gives top_size = 64 and layers = 10. -/
theorem C7_params_geometry (k cols queries : Nat) :
    queries ≤ 2 ^ Nat.clog 2 queries ∧
      (∀ m, queries ≤ 2 ^ m → Nat.clog 2 queries ≤ m) ∧
      (MerkleTreeParams.new (2 ^ k) cols queries).top_size =
        min (2 ^ Nat.clog 2 queries) (2 ^ k) ∧
      (MerkleTreeParams.new (2 ^ k) cols queries).layers = k := by
  refine ⟨Nat.le_pow_clog (by norm_num) _,
    fun m hm => (Nat.le_pow_iff_clog_le (by norm_num)).mp hm, rfl, ?_⟩
  rw [params_new_layers, Nat.log_pow (by norm_num)]

/-- C8: prove with idx ≥ rows fails loudly, returning none and hence writing
nothing to the transcript, and new with a matrix whose size differs from
rows * cols fails the same way; in the source both are assert aborts
(src/risc0/zkp/src/prove/merkle.rs lines 63 and 111). -/
theorem C8_contract_violation (hashRow : List Nat → Nat) (hf : Nat → Nat → Nat)
    (unified : Bool) (gather : List Nat → Nat → Nat → Nat → List Nat)
    (p : MerkleTreeProver) (idx : Nat) (matrix : List Nat) (rows cols queries : Nat)
    (hidx : p.params.row_size ≤ idx) (hmat : matrix.length ≠ rows * cols) :
    MerkleTreeProver.prove unified gather p idx = none ∧
      MerkleTreeProver.new hashRow hf matrix rows cols queries = none := by
  constructor
  · unfold MerkleTreeProver.prove
    rw [if_neg (by omega)]
  · unfold MerkleTreeProver.new
    rw [if_neg hmat]

/-- C8 witness: prove(rows) on the concrete 4 x 2 prover returns none, and new
with an empty matrix for a 1 x 1 geometry returns none. -/
theorem C8_contract_violation_witness :
    tProver.params.row_size ≤ 4 ∧ ([] : List Nat).length ≠ 1 * 1 ∧
      MerkleTreeProver.prove true gather_sample tProver 4 = none ∧
      MerkleTreeProver.new tHashRow tHashFold [] 1 1 1 = none :=
  ⟨by decide, by decide,
    C8_contract_violation tHashRow tHashFold true gather_sample tProver 4 [] 1 1 1
      (by decide) (by decide)⟩

/-- C2: for every idx < rows, the vector returned by prove has length exactly
cols and its i-th element is matrix[idx + i * rows], where matrix is the
buffer the prover was constructed with. -/
theorem C2_prove_column_values (hashRow : List Nat → Nat) (hf : Nat → Nat → Nat)
    (matrix : List Nat) (rows cols queries idx : Nat) (p : MerkleTreeProver)
    (hp : MerkleTreeProver.new hashRow hf matrix rows cols queries = some p)
    (hidx : idx < rows) (col : List Nat) (pw : List IOPWrite)
    (hpr : MerkleTreeProver.prove true gather_sample p idx = some (col, pw)) :
    col.length = cols ∧ ∀ i, i < cols → col.getD i 0 = matrix.getD (idx + i * rows) 0 := by
  obtain ⟨hm, hparams, hmat, hnodes, hroot⟩ := new_inv hashRow hf matrix rows cols queries p hp
  rw [prove_eq_some gather_sample p idx (by rw [hparams, params_new_row_size]; exact hidx)] at hpr
  have hcol : col = column p.matrix p.params.row_size p.params.col_size idx := by
    simp only [Option.some_inj, Prod.mk.injEq] at hpr
    exact hpr.1.symm
  rw [hcol, hmat, hparams, params_new_row_size, params_new_col_size]
  constructor
  · simp [column]
  · intro i hi
    unfold column
    exact getD_map_range _ cols i hi

/-- C2 witness: on the concrete 4 x 2 prover, prove(2) returns the column
[12, 22] of length 2 whose i-th entry is tMatrix[2 + 4 * i]. -/
theorem C2_prove_column_values_witness :
    MerkleTreeProver.new tHashRow tHashFold tMatrix 4 2 2 = some tProver ∧ 2 < 4 ∧
      MerkleTreeProver.prove true gather_sample tProver 2 =
        some ([12, 22],
          [IOPWrite.fieldElem 12, IOPWrite.fieldElem 22, IOPWrite.digest 129]) ∧
      ([12, 22] : List Nat).length = 2 ∧
      (∀ i, i < 2 → ([12, 22] : List Nat).getD i 0 = tMatrix.getD (2 + i * 4) 0) := by
  have h1 : MerkleTreeProver.new tHashRow tHashFold tMatrix 4 2 2 = some tProver := tProver_new
  have h2 : MerkleTreeProver.prove true gather_sample tProver 2 =
      some ([12, 22],
        [IOPWrite.fieldElem 12, IOPWrite.fieldElem 22, IOPWrite.digest 129]) :=
    tProver_prove
  exact ⟨h1, by norm_num, h2,
    (C2_prove_column_values tHashRow tHashFold tMatrix 4 2 2 2 tProver h1 (by norm_num)
        [12, 22] [IOPWrite.fieldElem 12, IOPWrite.fieldElem 22, IOPWrite.digest 129] h2).1,
    (C2_prove_column_values tHashRow tHashFold tMatrix 4 2 2 2 tProver h1 (by norm_num)
        [12, 22] [IOPWrite.fieldElem 12, IOPWrite.fieldElem 22, IOPWrite.digest 129] h2).2⟩

/-- C6: commit writes exactly the top_size digests nodes[top_size..2*top_size)
to the transcript as a pod slice, followed only by the digest-commit primitive
applied to the root; commit is a function of the prover value alone (the
source takes &self), so it does not modify the prover's state. -/
theorem C6_commit_writes (hashRow : List Nat → Nat) (hf : Nat → Nat → Nat)
    (matrix : List Nat) (rows cols queries : Nat) (p : MerkleTreeProver)
    (hp : MerkleTreeProver.new hashRow hf matrix rows cols queries = some p) :
    p.commit =
      ((List.range p.params.top_size).map fun i =>
          IOPWrite.digest (p.nodes.getD (p.params.top_size + i) 0)) ++
        [IOPWrite.commitDigest p.root] := by
  obtain ⟨hm, hparams, hmat, hnodes, hroot⟩ := new_inv hashRow hf matrix rows cols queries p hp
  have htsle : p.params.top_size ≤ rows := by
    rw [hparams, params_new_top_size]
    exact min_le_right _ _
  have hacc : ∀ j, j < 2 * rows →
      p.nodes.getD j 0 = heapify hf (leafList hashRow matrix rows cols) j := by
    intro j hj
    rw [hnodes]
    exact getD_map_range _ (2 * rows) j hj
  unfold MerkleTreeProver.commit
  congr 1
  conv_lhs => rw [hnodes]
  rw [top_slice_eq _ rows p.params.top_size htsle, List.map_map]
  apply List.map_congr_left
  intro i hi
  have hi2 : i < p.params.top_size := List.mem_range.mp hi
  simp only [Function.comp]
  rw [hacc (p.params.top_size + i) (by omega)]

/-- C6 witness: on the concrete 4 x 2 prover (top_size = 2) commit emits the
two digests nodes[2], nodes[3] and then the commit of the root. -/
theorem C6_commit_writes_witness :
    MerkleTreeProver.new tHashRow tHashFold tMatrix 4 2 2 = some tProver ∧
      tProver.commit =
        ((List.range tProver.params.top_size).map fun i =>
            IOPWrite.digest (tProver.nodes.getD (tProver.params.top_size + i) 0)) ++
          [IOPWrite.commitDigest tProver.root] :=
  ⟨tProver_new, C6_commit_writes tHashRow tHashFold tMatrix 4 2 2 tProver tProver_new⟩

/-- C4: for idx < rows, prove writes the column and then walks from idx + rows
toward the root: at each step it writes the digest at the sibling index (the
current index XOR 1, i.e. the other child of the same parent) and moves to the
parent index / 2, stopping as soon as the index is below 2 * top_size. -/
theorem C4_sibling_walk_structure (hashRow : List Nat → Nat) (hf : Nat → Nat → Nat)
    (matrix : List Nat) (rows cols queries idx : Nat) (p : MerkleTreeProver)
    (hp : MerkleTreeProver.new hashRow hf matrix rows cols queries = some p)
    (hidx : idx < rows) (col : List Nat) (pw : List IOPWrite)
    (hpr : MerkleTreeProver.prove true gather_sample p idx = some (col, pw)) :
    pw = col.map IOPWrite.fieldElem ++
        (siblingWalk (fun j => p.nodes.getD j 0) p.params.top_size
            (idx + rows)).map IOPWrite.digest ∧
      (∀ (nodes : Nat → Nat) (ts i : Nat), 0 < ts →
        siblingWalk nodes ts i =
          if 2 * ts ≤ i then nodes (i ^^^ 1) :: siblingWalk nodes ts (i / 2) else []) := by
  constructor
  · obtain ⟨hm, hparams, hmat, hnodes, hroot⟩ := new_inv hashRow hf matrix rows cols queries p hp
    rw [prove_eq_some gather_sample p idx (by rw [hparams, params_new_row_size]; exact hidx)]
      at hpr
    simp only [Option.some_inj, Prod.mk.injEq] at hpr
    obtain ⟨hc, hw⟩ := hpr
    rw [← hw, ← hc, hparams, params_new_row_size]
  · intro nodes ts i hts
    rw [siblingWalk]
    by_cases h : 2 * ts ≤ i
    · rw [if_pos ⟨h, hts⟩, if_pos h, xor_one_eq_sibling i]
    · rw [if_neg (by omega), if_neg h]

/-- C4 witness: on the concrete 4 x 2 prover, prove(2) writes the column
[12, 22] and then the single sibling digest nodes[7] = 129 (from leaf index 6,
sibling 7, stopping at parent 3 < 2 * top_size = 4), and the walk satisfies
the XOR-sibling unfolding. -/
theorem C4_sibling_walk_structure_witness :
    MerkleTreeProver.new tHashRow tHashFold tMatrix 4 2 2 = some tProver ∧ 2 < 4 ∧
      MerkleTreeProver.prove true gather_sample tProver 2 =
        some ([12, 22],
          [IOPWrite.fieldElem 12, IOPWrite.fieldElem 22, IOPWrite.digest 129]) ∧
      ([IOPWrite.fieldElem 12, IOPWrite.fieldElem 22, IOPWrite.digest 129] =
        ([12, 22] : List Nat).map IOPWrite.fieldElem ++
          (siblingWalk (fun j => tProver.nodes.getD j 0) tProver.params.top_size
              (2 + 4)).map IOPWrite.digest ∧
        (∀ (nodes : Nat → Nat) (ts i : Nat), 0 < ts →
          siblingWalk nodes ts i =
            if 2 * ts ≤ i then nodes (i ^^^ 1) :: siblingWalk nodes ts (i / 2) else [])) := by
  have h2 : MerkleTreeProver.prove true gather_sample tProver 2 =
      some ([12, 22],
        [IOPWrite.fieldElem 12, IOPWrite.fieldElem 22, IOPWrite.digest 129]) :=
    tProver_prove
  exact ⟨tProver_new, by norm_num, h2,
    C4_sibling_walk_structure tHashRow tHashFold tMatrix 4 2 2 2 tProver tProver_new
      (by norm_num) [12, 22]
      [IOPWrite.fieldElem 12, IOPWrite.fieldElem 22, IOPWrite.digest 129] h2⟩

/-- C5: for idx < rows = 2^k, prove writes exactly cols field elements
followed by exactly log2(rows) - log2(top_size) sibling digests, one per tree
level from the leaf level up to but excluding the top boundary; when
top_size = rows it writes zero digests. -/
theorem C5_proof_shape (hashRow : List Nat → Nat) (hf : Nat → Nat → Nat)
    (matrix : List Nat) (k cols queries idx : Nat) (p : MerkleTreeProver)
    (hp : MerkleTreeProver.new hashRow hf matrix (2 ^ k) cols queries = some p)
    (hidx : idx < 2 ^ k) (col : List Nat) (pw : List IOPWrite)
    (hpr : MerkleTreeProver.prove true gather_sample p idx = some (col, pw)) :
    ∃ sibs : List Nat,
      pw = col.map IOPWrite.fieldElem ++ sibs.map IOPWrite.digest ∧
        col.length = cols ∧
        sibs.length = Nat.log 2 (2 ^ k) - Nat.log 2 p.params.top_size ∧
        (p.params.top_size = 2 ^ k → sibs = []) := by
  obtain ⟨hm, hparams, hmat, hnodes, hroot⟩ :=
    new_inv hashRow hf matrix (2 ^ k) cols queries p hp
  rw [prove_eq_some gather_sample p idx (by rw [hparams, params_new_row_size]; exact hidx)]
    at hpr
  simp only [Option.some_inj, Prod.mk.injEq] at hpr
  obtain ⟨hc, hw⟩ := hpr
  have hts : p.params.top_size = 2 ^ min (Nat.clog 2 queries) k := by
    rw [hparams]
    exact top_size_pow k cols queries
  have hrow : p.params.row_size = 2 ^ k := by rw [hparams, params_new_row_size]
  refine ⟨siblingWalk (fun j => p.nodes.getD j 0) p.params.top_size
      (idx + p.params.row_size), ?_, ?_, ?_, ?_⟩
  · rw [← hw, ← hc]
  · rw [← hc, hparams, params_new_row_size, params_new_col_size]
    simp [column]
  · rw [siblingWalk_eq_map, List.length_map, hts, hrow]
    have hlen := siblingWalkIndices_length (min (Nat.clog 2 queries) k) k (idx + 2 ^ k)
      (min_le_right _ _)
      (by omega)
      (by
        have hpow : (2 : Nat) ^ (k + 1) = 2 * 2 ^ k := by ring
        omega)
    rw [hlen, Nat.log_pow (by norm_num), Nat.log_pow (by norm_num)]
  · intro h2
    rw [hrow, h2, siblingWalk, if_neg (by omega)]

/-- C5 witness: on the concrete 4 x 2 prover (k = 2, top_size = 2) prove(2)
writes 2 field elements and log2(4) - log2(2) = 1 sibling digest. -/
theorem C5_proof_shape_witness :
    MerkleTreeProver.new tHashRow tHashFold tMatrix (2 ^ 2) 2 2 = some tProver ∧ 2 < 2 ^ 2 ∧
      MerkleTreeProver.prove true gather_sample tProver 2 =
        some ([12, 22],
          [IOPWrite.fieldElem 12, IOPWrite.fieldElem 22, IOPWrite.digest 129]) ∧
      (∃ sibs : List Nat,
        [IOPWrite.fieldElem 12, IOPWrite.fieldElem 22, IOPWrite.digest 129] =
            ([12, 22] : List Nat).map IOPWrite.fieldElem ++ sibs.map IOPWrite.digest ∧
          ([12, 22] : List Nat).length = 2 ∧
          sibs.length = Nat.log 2 (2 ^ 2) - Nat.log 2 tProver.params.top_size ∧
          (tProver.params.top_size = 2 ^ 2 → sibs = [])) := by
  have h1 : MerkleTreeProver.new tHashRow tHashFold tMatrix (2 ^ 2) 2 2 = some tProver :=
    tProver_new
  have h2 : MerkleTreeProver.prove true gather_sample tProver 2 =
      some ([12, 22],
        [IOPWrite.fieldElem 12, IOPWrite.fieldElem 22, IOPWrite.digest 129]) :=
    tProver_prove
  exact ⟨h1, by norm_num, h2,
    C5_proof_shape tHashRow tHashFold tMatrix 2 2 2 2 tProver h1 (by norm_num) [12, 22]
      [IOPWrite.fieldElem 12, IOPWrite.fieldElem 22, IOPWrite.digest 129] h2⟩

/-- C10: on a prover built by new, with idx < rows every array access of prove
is in bounds: the matrix indices idx + i * rows all lie below
rows * cols = matrix.length, the sibling-walk heap indices all lie in
[1, 2 * rows) = [1, nodes.length), and prove succeeds, so the entry assertion
idx < rows is the only point at which prove can fail. -/
theorem C10_memory_safety (hashRow : List Nat → Nat) (hf : Nat → Nat → Nat)
    (matrix : List Nat) (rows cols queries idx : Nat) (p : MerkleTreeProver)
    (hp : MerkleTreeProver.new hashRow hf matrix rows cols queries = some p)
    (hidx : idx < rows) :
    p.nodes.length = 2 * rows ∧ p.matrix.length = rows * cols ∧
      (∀ i, i < cols → idx + i * rows < rows * cols) ∧
      (∀ j ∈ siblingWalkIndices p.params.top_size (idx + rows), 1 ≤ j ∧ j < 2 * rows) ∧
      MerkleTreeProver.prove true gather_sample p idx ≠ none := by
  obtain ⟨hm, hparams, hmat, hnodes, hroot⟩ := new_inv hashRow hf matrix rows cols queries p hp
  refine ⟨by rw [hnodes]; simp, by rw [hmat]; exact hm, ?_, ?_, ?_⟩
  · intro i hi
    have h1 : i * rows ≤ (cols - 1) * rows := Nat.mul_le_mul_right rows (by omega)
    have h2 : (cols - 1) * rows + rows = rows * cols := by
      cases cols with
      | zero => omega
      | succ c =>
        simp only [Nat.succ_sub_one]
        rw [Nat.mul_comm rows (c + 1), Nat.succ_mul]
    omega
  · exact siblingWalkIndices_mem p.params.top_size rows (idx + rows) (by omega)
  · rw [prove_eq_some gather_sample p idx (by rw [hparams, params_new_row_size]; exact hidx)]
    simp

/-- C10 witness: the bounds and success of prove(2) on the concrete 4 x 2
prover. -/
theorem C10_memory_safety_witness :
    MerkleTreeProver.new tHashRow tHashFold tMatrix 4 2 2 = some tProver ∧ 2 < 4 ∧
      (tProver.nodes.length = 2 * 4 ∧ tProver.matrix.length = 4 * 2 ∧
        (∀ i, i < 2 → 2 + i * 4 < 4 * 2) ∧
        (∀ j ∈ siblingWalkIndices tProver.params.top_size (2 + 4), 1 ≤ j ∧ j < 2 * 4) ∧
        MerkleTreeProver.prove true gather_sample tProver 2 ≠ none) :=
  ⟨tProver_new, by norm_num,
    C10_memory_safety tHashRow tHashFold tMatrix 4 2 2 2 tProver tProver_new (by norm_num)⟩

/-- C3: after new with rows = 2^k, the node array has size 2 * rows with index
0 unused; entries [rows, 2 * rows) hold the leaf digests (the row-hash of the
corresponding matrix column), entries [1, rows) hold hash(nodes[2i],
nodes[2i+1]), and root() returns nodes[1].  commit and prove are functions of
the prover value (the source takes &self), so every later call leaves the
invariant untouched by construction. -/
theorem C3_node_invariant (hashRow : List Nat → Nat) (hf : Nat → Nat → Nat)
    (matrix : List Nat) (k cols queries : Nat) (p : MerkleTreeProver)
    (hp : MerkleTreeProver.new hashRow hf matrix (2 ^ k) cols queries = some p) :
    p.nodes.length = 2 * 2 ^ k ∧
      (∀ j, 2 ^ k ≤ j → j < 2 * 2 ^ k →
        p.nodes.getD j 0 = hashRow (column matrix (2 ^ k) cols (j - 2 ^ k))) ∧
      (∀ i, 1 ≤ i → i < 2 ^ k →
        p.nodes.getD i 0 = hf (p.nodes.getD (2 * i) 0) (p.nodes.getD (2 * i + 1) 0)) ∧
      p.root = p.nodes.getD 1 0 := by
  obtain ⟨hm, hparams, hmat, hnodes, hroot⟩ :=
    new_inv hashRow hf matrix (2 ^ k) cols queries p hp
  have h2k : (0 : Nat) < 2 ^ k := Nat.pos_pow_of_pos _ (by norm_num)
  have hpow : (2 : Nat) ^ (k + 1) = 2 * 2 ^ k := by ring
  have hacc : ∀ j, j < 2 * 2 ^ k →
      p.nodes.getD j 0 = heapify hf (leafList hashRow matrix (2 ^ k) cols) j := by
    intro j hj
    rw [hnodes]
    exact getD_map_range _ (2 * 2 ^ k) j hj
  refine ⟨by rw [hnodes]; simp, ?_, ?_, ?_⟩
  · intro j h1 h2
    rw [hacc j h2]
    exact prover_nodes_leaf hashRow hf matrix k cols j h1 (by omega)
  · intro i h1 h2
    rw [hacc i (by omega), hacc (2 * i) (by omega), hacc (2 * i + 1) (by omega)]
    exact prover_nodes_node hashRow hf matrix k cols i h1 h2
  · rw [hacc 1 (by omega), hroot]

/-- C3 witness: the invariant on the concrete 4 x 2 prover (k = 2). -/
theorem C3_node_invariant_witness :
    MerkleTreeProver.new tHashRow tHashFold tMatrix (2 ^ 2) 2 2 = some tProver ∧
      (tProver.nodes.length = 2 * 2 ^ 2 ∧
        (∀ j, 2 ^ 2 ≤ j → j < 2 * 2 ^ 2 →
          tProver.nodes.getD j 0 = tHashRow (column tMatrix (2 ^ 2) 2 (j - 2 ^ 2))) ∧
        (∀ i, 1 ≤ i → i < 2 ^ 2 →
          tProver.nodes.getD i 0 =
            tHashFold (tProver.nodes.getD (2 * i) 0) (tProver.nodes.getD (2 * i + 1) 0)) ∧
        tProver.root = tProver.nodes.getD 1 0) :=
  ⟨tProver_new, C3_node_invariant tHashRow tHashFold tMatrix 2 2 2 tProver tProver_new⟩

/-- C9: assuming gather_sample meets its contract (it fills position i of the
sample buffer with matrix[idx + i * rows]), the unified-memory in-place path
and the gather path of prove return identical column vectors and identical
transcript writes, for every prover and index. -/
theorem C9_extraction_paths_agree (gather : List Nat → Nat → Nat → Nat → List Nat)
    (hg : GatherContract gather) (p : MerkleTreeProver) (idx : Nat) :
    MerkleTreeProver.prove true gather p idx = MerkleTreeProver.prove false gather p idx := by
  by_cases hidx : idx < p.params.row_size
  · rw [prove_eq_some gather p idx hidx, prove_gather_eq_some gather p idx hidx]
    have hcol : column p.matrix p.params.row_size p.params.col_size idx =
        gather p.matrix idx p.params.col_size p.params.row_size := by
      obtain ⟨hlen, hval⟩ := hg p.matrix idx p.params.col_size p.params.row_size
      apply List.ext_getElem
      · simp [column, hlen]
      · intro i h1 h2
        have hi : i < p.params.col_size := by simpa [column] using h1
        have hv := hval i hi
        rw [List.getD_eq_getElem _ 0 h2] at hv
        unfold column
        rw [List.getElem_map, List.getElem_range, ← hv]
    rw [hcol]
  · unfold MerkleTreeProver.prove
    rw [if_neg hidx, if_neg hidx]

/-- C9 witness: the reference gather_sample meets the contract, and on the
concrete 4 x 2 prover the two paths of prove(2) agree. -/
theorem C9_extraction_paths_agree_witness :
    GatherContract gather_sample ∧
      MerkleTreeProver.prove true gather_sample tProver 2 =
        MerkleTreeProver.prove false gather_sample tProver 2 := by
  have hg : GatherContract gather_sample := by
    intro matrix idx size stride
    constructor
    · simp [gather_sample]
    · intro i hi
      unfold gather_sample
      exact getD_map_range _ size i hi
  exact ⟨hg, C9_extraction_paths_agree gather_sample hg tProver 2⟩

/-! ## Round-trip -/

theorem verifier_new_exact (hf : Nat → Nat → Nat) (rows cols queries : Nat)
    (ds : List Nat) (root0 : Nat) (rest : List IOPWrite)
    (hlen : ds.length = (MerkleTreeParams.new rows cols queries).top_size) :
    MerkleTreeVerifier.new hf rows cols queries
        (ds.map IOPWrite.digest ++ (IOPWrite.commitDigest root0 :: rest)) =
      some ({ params := MerkleTreeParams.new rows cols queries
              top := (List.range (2 * (MerkleTreeParams.new rows cols queries).top_size)).map
                (heapify hf ds)
              root := heapify hf ds 1 }, rest) := by
  unfold MerkleTreeVerifier.new
  simp only [← hlen]
  rw [readDigests_exact ds (IOPWrite.commitDigest root0 :: rest)]

theorem verify_on_stream (hashRow : List Nat → Nat) (hf : Nat → Nat → Nat)
    (v : MerkleTreeVerifier) (idx : Nat) (col : List Nat) (s2 : List IOPWrite)
    (hclen : col.length = v.params.col_size) :
    MerkleTreeVerifier.verify hashRow hf v idx (col.map IOPWrite.fieldElem ++ s2) =
      match verifyWalk hf v.params.top_size (hashRow col) (idx + v.params.row_size) s2 with
      | some (cur, topIdx, rest) =>
        if cur = v.top.getD topIdx 0 then VerifyOutcome.ok col rest
        else VerifyOutcome.invalidProof
      | none => VerifyOutcome.malformed := by
  unfold MerkleTreeVerifier.verify
  rw [← hclen, readElems_exact col s2]

theorem verify_ok (hashRow : List Nat → Nat) (hf : Nat → Nat → Nat)
    (params : MerkleTreeParams) (N : Nat → Nat) (t k : Nat) (col : List Nat) (idx : Nat)
    (hts : params.top_size = 2 ^ t)
    (hrow : params.row_size = 2 ^ k)
    (hcolsz : col.length = params.col_size)
    (htk : t ≤ k)
    (hheap : ∀ i, 1 ≤ i → i < 2 ^ k → N i = hf (N (2 * i)) (N (2 * i + 1)))
    (hidx : idx < 2 ^ k)
    (hleaf : hashRow col = N (idx + 2 ^ k)) :
    MerkleTreeVerifier.verify hashRow hf
      { params := params
        top := (List.range (2 * 2 ^ t)).map
          (heapify hf ((List.range (2 ^ t)).map fun i => N (2 ^ t + i)))
        root := heapify hf ((List.range (2 ^ t)).map fun i => N (2 ^ t + i)) 1 }
      idx
      (col.map IOPWrite.fieldElem ++ (siblingWalk N (2 ^ t) (idx + 2 ^ k)).map IOPWrite.digest)
      = VerifyOutcome.ok col [] := by
  have hts_pos : (0 : Nat) < 2 ^ t := Nat.pos_pow_of_pos _ (by norm_num)
  have htsk : (2 : Nat) ^ t ≤ 2 ^ k := Nat.pow_le_pow_right (by norm_num) htk
  have h2k : (0 : Nat) < 2 ^ k := Nat.pos_pow_of_pos _ (by norm_num)
  have hti := topIndex_bounds (2 ^ t) hts_pos (idx + 2 ^ k) (by omega)
  have htop : ((List.range (2 * 2 ^ t)).map
      (heapify hf ((List.range (2 ^ t)).map fun i => N (2 ^ t + i)))).getD
        (topIndex (2 ^ t) (idx + 2 ^ k)) 0 = N (topIndex (2 ^ t) (idx + 2 ^ k)) := by
    rw [getD_map_range _ (2 * 2 ^ t) (topIndex (2 ^ t) (idx + 2 ^ k)) (by omega)]
    exact verifier_top_agrees hf N t (2 ^ k) htsk hheap (topIndex (2 ^ t) (idx + 2 ^ k))
      (by omega) (by omega)
  rw [verify_on_stream hashRow hf _ idx col
    ((siblingWalk N (2 ^ t) (idx + 2 ^ k)).map IOPWrite.digest) hcolsz]
  simp only [hts, hrow]
  rw [hleaf, ← List.append_nil ((siblingWalk N (2 ^ t) (idx + 2 ^ k)).map IOPWrite.digest)]
  rw [verifyWalk_sim hf N (2 ^ t) (2 ^ k) hts_pos hheap (idx + 2 ^ k) (by omega) (by omega) []]
  simp only [htop]
  simp

/-- C1: for every matrix, geometry (rows = 2^k a power of two, cols ≥ 1,
queries ≥ 1) and idx < rows, verify(idx) on the transcript produced by commit
followed by prove(idx) over the same matrix consumes exactly that transcript,
succeeds and returns exactly the column values matrix[idx + i * rows] that
prove(idx) returned. -/
theorem C1_roundtrip (hashRow : List Nat → Nat) (hf : Nat → Nat → Nat)
    (matrix : List Nat) (k cols queries idx : Nat)
    (hcols : 1 ≤ cols) (hq : 1 ≤ queries)
    (hm : matrix.length = 2 ^ k * cols) (hidx : idx < 2 ^ k)
    (p : MerkleTreeProver)
    (hp : MerkleTreeProver.new hashRow hf matrix (2 ^ k) cols queries = some p)
    (col : List Nat) (pw : List IOPWrite)
    (hpr : MerkleTreeProver.prove true gather_sample p idx = some (col, pw)) :
    col = column matrix (2 ^ k) cols idx ∧
      ∃ v : MerkleTreeVerifier,
        MerkleTreeVerifier.new hf (2 ^ k) cols queries (p.commit ++ pw) = some (v, pw) ∧
        MerkleTreeVerifier.verify hashRow hf v idx pw = VerifyOutcome.ok col [] := by
  obtain ⟨hm2, hparams, hmat, hnodes, hroot⟩ :=
    new_inv hashRow hf matrix (2 ^ k) cols queries p hp
  have h2k : (0 : Nat) < 2 ^ k := Nat.pos_pow_of_pos _ (by norm_num)
  have hpow : (2 : Nat) ^ (k + 1) = 2 * 2 ^ k := by ring
  have hts : p.params.top_size = 2 ^ min (Nat.clog 2 queries) k := by
    rw [hparams]
    exact top_size_pow k cols queries
  have htk : min (Nat.clog 2 queries) k ≤ k := min_le_right _ _
  have htsk : (2 : Nat) ^ min (Nat.clog 2 queries) k ≤ 2 ^ k :=
    Nat.pow_le_pow_right (by norm_num) htk
  have hts_pos : (0 : Nat) < 2 ^ min (Nat.clog 2 queries) k :=
    Nat.pos_pow_of_pos _ (by norm_num)
  have hrow : p.params.row_size = 2 ^ k := by rw [hparams, params_new_row_size]
  have hcolsz : p.params.col_size = cols := by rw [hparams, params_new_col_size]
  have hheap : ∀ i, 1 ≤ i → i < 2 ^ k →
      heapify hf (leafList hashRow matrix (2 ^ k) cols) i =
        hf (heapify hf (leafList hashRow matrix (2 ^ k) cols) (2 * i))
          (heapify hf (leafList hashRow matrix (2 ^ k) cols) (2 * i + 1)) :=
    fun i h1 h2 => prover_nodes_node hashRow hf matrix k cols i h1 h2
  have hacc : ∀ j, j < 2 * 2 ^ k →
      p.nodes.getD j 0 = heapify hf (leafList hashRow matrix (2 ^ k) cols) j := by
    intro j hj
    rw [hnodes]
    exact getD_map_range _ (2 * 2 ^ k) j hj
  rw [prove_eq_some gather_sample p idx (by rw [hrow]; exact hidx)] at hpr
  simp only [Option.some_inj, Prod.mk.injEq] at hpr
  obtain ⟨hc, hw⟩ := hpr
  have hcol : col = column matrix (2 ^ k) cols idx := by
    rw [← hc, hmat, hrow, hcolsz]
  refine ⟨hcol, ?_⟩
  have hwalk : siblingWalk (fun j => p.nodes.getD j 0) p.params.top_size
      (idx + p.params.row_size) =
      siblingWalk (heapify hf (leafList hashRow matrix (2 ^ k) cols))
        (2 ^ min (Nat.clog 2 queries) k) (idx + 2 ^ k) := by
    rw [hts, hrow, siblingWalk_eq_map, siblingWalk_eq_map]
    apply List.map_congr_left
    intro j hj
    exact hacc j
      (siblingWalkIndices_mem (2 ^ min (Nat.clog 2 queries) k) (2 ^ k) (idx + 2 ^ k)
        (by omega) j hj).2
  have hpw : pw = col.map IOPWrite.fieldElem ++
      (siblingWalk (heapify hf (leafList hashRow matrix (2 ^ k) cols))
        (2 ^ min (Nat.clog 2 queries) k) (idx + 2 ^ k)).map IOPWrite.digest := by
    rw [← hw, hwalk, hc]
  have hcommit : p.commit =
      ((List.range (2 ^ min (Nat.clog 2 queries) k)).map fun i =>
          heapify hf (leafList hashRow matrix (2 ^ k) cols)
            (2 ^ min (Nat.clog 2 queries) k + i)).map IOPWrite.digest ++
        [IOPWrite.commitDigest (heapify hf (leafList hashRow matrix (2 ^ k) cols) 1)] := by
    unfold MerkleTreeProver.commit
    rw [hroot, hts]
    congr 1
    conv_lhs => rw [hnodes]
    rw [top_slice_eq _ (2 ^ k) (2 ^ min (Nat.clog 2 queries) k) htsk]
  have hds_len : ((List.range (2 ^ min (Nat.clog 2 queries) k)).map fun i =>
      heapify hf (leafList hashRow matrix (2 ^ k) cols)
        (2 ^ min (Nat.clog 2 queries) k + i)).length =
      (MerkleTreeParams.new (2 ^ k) cols queries).top_size := by
    rw [top_size_pow k cols queries]
    simp
  have hver := verifier_new_exact hf (2 ^ k) cols queries
    ((List.range (2 ^ min (Nat.clog 2 queries) k)).map fun i =>
      heapify hf (leafList hashRow matrix (2 ^ k) cols)
        (2 ^ min (Nat.clog 2 queries) k + i))
    (heapify hf (leafList hashRow matrix (2 ^ k) cols) 1) pw hds_len
  rw [top_size_pow k cols queries] at hver
  have hleafeq : hashRow col =
      heapify hf (leafList hashRow matrix (2 ^ k) cols) (idx + 2 ^ k) := by
    rw [prover_nodes_leaf hashRow hf matrix k cols (idx + 2 ^ k) (by omega) (by omega)]
    rw [Nat.add_sub_cancel, hcol]
  refine ⟨{ params := MerkleTreeParams.new (2 ^ k) cols queries
            top := (List.range (2 * 2 ^ min (Nat.clog 2 queries) k)).map
              (heapify hf ((List.range (2 ^ min (Nat.clog 2 queries) k)).map fun i =>
                heapify hf (leafList hashRow matrix (2 ^ k) cols)
                  (2 ^ min (Nat.clog 2 queries) k + i)))
            root := heapify hf ((List.range (2 ^ min (Nat.clog 2 queries) k)).map fun i =>
              heapify hf (leafList hashRow matrix (2 ^ k) cols)
                (2 ^ min (Nat.clog 2 queries) k + i)) 1 }, ?_, ?_⟩
  · rw [hcommit, List.append_assoc, List.singleton_append]
    exact hver
  · rw [hpw]
    exact verify_ok hashRow hf (MerkleTreeParams.new (2 ^ k) cols queries)
      (heapify hf (leafList hashRow matrix (2 ^ k) cols)) (min (Nat.clog 2 queries) k) k
      col idx (top_size_pow k cols queries) (params_new_row_size (2 ^ k) cols queries)
      (by rw [hcol, params_new_col_size]; simp [column]) htk hheap hidx hleafeq

/-- C1 witness: the complete round trip on the concrete 4 x 2 tree (k = 2,
cols = 2, queries = 2) at index 2: commit followed by prove(2) verifies and
returns the column [12, 22]. -/
theorem C1_roundtrip_witness :
    (1 : Nat) ≤ 2 ∧ (1 : Nat) ≤ 2 ∧ tMatrix.length = 2 ^ 2 * 2 ∧ 2 < 2 ^ 2 ∧
      MerkleTreeProver.new tHashRow tHashFold tMatrix (2 ^ 2) 2 2 = some tProver ∧
      MerkleTreeProver.prove true gather_sample tProver 2 =
        some ([12, 22],
          [IOPWrite.fieldElem 12, IOPWrite.fieldElem 22, IOPWrite.digest 129]) ∧
      (([12, 22] : List Nat) = column tMatrix (2 ^ 2) 2 2 ∧
        ∃ v : MerkleTreeVerifier,
          MerkleTreeVerifier.new tHashFold (2 ^ 2) 2 2
              (tProver.commit ++
                [IOPWrite.fieldElem 12, IOPWrite.fieldElem 22, IOPWrite.digest 129]) =
            some (v,
              [IOPWrite.fieldElem 12, IOPWrite.fieldElem 22, IOPWrite.digest 129]) ∧
          MerkleTreeVerifier.verify tHashRow tHashFold v 2
              [IOPWrite.fieldElem 12, IOPWrite.fieldElem 22, IOPWrite.digest 129] =
            VerifyOutcome.ok [12, 22] []) :=
  ⟨by norm_num, by norm_num, by decide, by norm_num, tProver_new, tProver_prove,
    C1_roundtrip tHashRow tHashFold tMatrix 2 2 2 2 (by norm_num) (by norm_num) (by decide)
      (by norm_num) tProver tProver_new [12, 22]
      [IOPWrite.fieldElem 12, IOPWrite.fieldElem 22, IOPWrite.digest 129] tProver_prove⟩

end RiscZero
